import Mathlib

/-!
Verification development for the `bytebufferpool` repository (Go).

The repository contains three variants of the adaptive byte-buffer pool:
* `pool.go`: type `byteBufferPool`, per-size-class free lists, a `uint64`
  size-class function `index`/`bitSize`;
* `unnamed/part_001`: type `Pool`, a single free list, fixed-point
  percentile arithmetic and a 5% `defaultSize` adjustment pass;
* `unnamed/part_000`: type `Pool` (modelled here as `BinsPool`), a single
  free list plus dynamic re-basing of the size-class spectrum
  (`resizeBins`/`initBins`).

Go slices are abstracted to their logical length and capacity: the pool
logic only ever reads `len(b.B)` and `cap(b.B)` and resets via
`b.B = b.B[:0]`, never the byte contents.  Go `uint64` arithmetic is
modelled as `Nat` with explicit `% 2 ^ 64` where wrap-around matters, and
Go `int` as `Int` (64-bit overflow is unreachable at the sizes involved).
-/

/-- Constant `minBitSize = 6` from the source (a 64-byte cache line). -/
def minBitSize : Nat := 6

/-- Constant `steps = 20`: the number of size classes. -/
def steps : Nat := 20

/-- Constant `minSize = 1 << minBitSize`. -/
def minSize : Nat := 2 ^ minBitSize

/-- Constant `maxSize = 1 << (minBitSize + steps - 1)`, the top of the
size-class spectrum.  Named `maxSizeConst` because the pool structures
also carry a `maxSize` field. -/
def maxSizeConst : Nat := 2 ^ (minBitSize + steps - 1)

/-- Constant `calibrateCallsThreshold = 42000`. -/
def calibrateCallsThreshold : Nat := 42000

/-- Constant `defaultMinBitSize = 6` from `unnamed/part_000`. -/
def defaultMinBitSize : Nat := 6

/-- Constant `callsSumMaxValue = steps * calibrateCallsThreshold` from
`unnamed/part_001`. -/
def callsSumMaxValue : Nat := steps * calibrateCallsThreshold

/-- Constant `fractionDenominator = uint64(100)` from `unnamed/part_001`. -/
def fractionDenominator : Nat := 100

/-- Constant `maxPercentileRNumer = uint64(maxPercentile * float64(fractionDenominator))`.
In Go this is a constant expression evaluated with exact (arbitrary
precision) constant arithmetic: `0.95 * 100 = 95`. -/
def maxPercentileRNumer : Nat := 95

/-- Constant `maxPercentileGcd = uint64(5)` from `unnamed/part_001`. -/
def maxPercentileGcd : Nat := 5

/-- Constant `maxPercentileNumer = maxPercentileRNumer / maxPercentileGcd`. -/
def maxPercentileNumer : Nat := maxPercentileRNumer / maxPercentileGcd

/-- Constant `maxPercentileDenom = fractionDenominator / maxPercentileGcd`. -/
def maxPercentileDenom : Nat := fractionDenominator / maxPercentileGcd

/-- Constant `calibrateDefaultSizeAdjustmentsFactorRNumer`, in Go
`uint64((1 - 0.05) * float64(100))`, an exact constant expression
evaluating to `95`. -/
def calibrateDefaultSizeAdjustmentsFactorRNumer : Nat := 95

/-- Constant `calibrateDSASGcd = uint64(5)` from `unnamed/part_001`. -/
def calibrateDSASGcd : Nat := 5

/-- Constant `calibrateDefaultSizeAdjustmentsFactorNumer`. -/
def calibrateDefaultSizeAdjustmentsFactorNumer : Nat :=
  calibrateDefaultSizeAdjustmentsFactorRNumer / calibrateDSASGcd

/-- Constant `calibrateDefaultSizeAdjustmentsFactorDenom`. -/
def calibrateDefaultSizeAdjustmentsFactorDenom : Nat :=
  fractionDenominator / calibrateDSASGcd

/-- A Go `ByteBuffer`: the slice `B []byte` abstracted to its logical
length `len(b.B)` and capacity `cap(b.B)`; the pool logic never inspects
the byte contents. -/
structure ByteBuffer where
  len : Nat
  cap : Nat
deriving DecidableEq, Repr

/-- Fuel-driven helper for `bitSize`: halve `n` until it reaches `0`,
counting the iterations.  The fuel argument makes the recursion
structural (hence kernel-computable); `bitSize` supplies fuel `n`, which
always suffices since halving a positive number strictly decreases it. -/
def bitSizeAux : Nat → Nat → Nat
  | 0, _ => 0
  | _, 0 => 0
  | fuel + 1, n + 1 => bitSizeAux fuel ((n + 1) / 2) + 1

/-- `bitSize` from `pool.go`:
`s := 0; for n > 0 { n >>= 1; s++ }; return s` on `uint64`.
The identical loop also appears inside `index` of `unnamed/part_001` and
`unnamed/part_000` (there on a positive `int`). -/
def bitSize (n : Nat) : Nat := bitSizeAux n n

/-- The `uint64` modulus. -/
def w64 : Nat := 2 ^ 64

/-- Wrapping `uint64` subtraction `a - b` for `a, b < 2 ^ 64`. -/
def sub64 (a b : Nat) : Nat := (a + w64 - b % w64) % w64

/-- `index` from `pool.go`: `bitSize(n-1) - minBitSize` on `uint64`, both
the decrement and the subtraction wrapping modulo `2 ^ 64`. -/
def indexU (n : Nat) : Nat := sub64 (bitSize (sub64 n 1)) minBitSize

/-- The clamping applied to the class index in `byteBufferPool.Release`:
`if idx < 0 { idx = 0 } else if idx >= steps { idx = steps - 1 }`.
The index is a `uint64`, so the `idx < 0` branch is dead code. -/
def clampIdx (idx : Nat) : Nat := if steps ≤ idx then steps - 1 else idx

/-- `index(minBitSize, n)` from `unnamed/part_000` (and, specialised to
the constant `minBitSize`, `index(n)` from `unnamed/part_001`):
`n--; n >>= minBitSize; idx := 0; for n > 0 { n >>= 1; idx++ };
if idx >= steps { idx = steps - 1 }; return idx` on Go `int`.
Go's `>>` on a negative `int` is an arithmetic shift, i.e. `Int.fdiv` by
the power of two; when the shifted value is non-positive the counting
loop never runs. -/
def indexBins (mbs : Nat) (n : Int) : Nat :=
  let m : Int := Int.fdiv (n - 1) (2 ^ mbs)
  let idx := if 0 < m then bitSize m.toNat else 0
  if steps ≤ idx then steps - 1 else idx

/-- `index(n)` from `unnamed/part_001`: the same loop with the shift fixed
at the constant `minBitSize`. -/
def index (n : Int) : Nat := indexBins minBitSize n

/-- One `(calls, size)` entry of the calibration snapshot (`callSize` in
the source). -/
structure CallSize where
  calls : Nat
  size : Nat
deriving DecidableEq, Repr

/-- The comparison used by `callSizes.Less(i, j) = ci[i].calls > ci[j].calls`:
sorting with it puts larger call counts first. -/
def callGE (a b : CallSize) : Prop := b.calls ≤ a.calls

instance : DecidableRel callGE := fun a b => inferInstanceAs (Decidable (b.calls ≤ a.calls))

instance : IsTotal CallSize callGE := ⟨fun a b => Nat.le_total b.calls a.calls⟩

instance : IsTrans CallSize callGE := ⟨fun _ _ _ hab hbc => Nat.le_trans hbc hab⟩

/-- The `sort.Sort(a)` call of the calibration passes: a comparison sort
by `calls` descending.  Modelled as insertion sort, which is a stable
sort with respect to `callGE` (ties keep their class order). -/
def sortCalls (l : List CallSize) : List CallSize := List.insertionSort callGE l

/-- The fused calibration loop of `unnamed/part_001`
(`for i := 1; i < steps; i++ { ... }` over the sorted list, starting with
the running sum at `a[0].calls`):
`if callsSum > maxSum { break }` then the 5% `defaultSize` adjustment
(`a[i].calls > defSizeAdjustCallsThreshold && size > defaultSize`), the
`maxSize` update (`size > maxSize`), and `callsSum += a[i].calls`.
Returns the final `(defaultSize, maxSize)`. -/
def calibWalk (thr maxSum : Nat) : List CallSize → Nat → Nat → Nat → Nat × Nat
  | [], _, ds, ms => (ds, ms)
  | c :: rest, acc, ds, ms =>
    if maxSum < acc then (ds, ms)
    else
      let ds2 := if thr < c.calls ∧ ds < c.size then c.size else ds
      let ms2 := if ms < c.size then c.size else ms
      calibWalk thr maxSum rest (acc + c.calls) ds2 ms2

/-- The percentile loop of `unnamed/part_000`
(`for i := 0; i < steps; i++ { if callsSum > maxSum { break };
callsSum += a[i].calls; if size > maxSize { maxSize = size } }`),
returning the final `maxSize`. -/
def simpleWalk (maxSum : Nat) : List CallSize → Nat → Nat → Nat
  | [], _, ms => ms
  | c :: rest, acc, ms =>
    if maxSum < acc then ms
    else simpleWalk maxSum rest (acc + c.calls) (if ms < c.size then c.size else ms)

/-- The percentile loop of `pool.go`
(`for i := 0; i < steps; i++ { idx := steps; if callsSum <= maxSum { ... };
atomic.StoreUint64(&p.idxs[i], idx) }`): past the percentile cut-off the
loop keeps running, storing `steps` as the preference index.  Returns the
final `maxSize` together with the stored `idxs` entries in order. -/
def calibLoopB (maxSum : Nat) : List CallSize → Nat → Nat → Nat × List Nat
  | [], _, ms => (ms, [])
  | c :: rest, acc, ms =>
    if acc ≤ maxSum then
      let ms2 := if ms < c.size then c.size else ms
      let r := calibLoopB maxSum rest (acc + c.calls) ms2
      (r.1, indexU c.size :: r.2)
    else
      let r := calibLoopB maxSum rest acc ms
      (r.1, steps :: r.2)

/-- Modelled from the spec: the classes visited by the percentile walk — the
maximal group of leading entries of the calls-descending sorted list such
that each entry's preceding running sum has not yet exceeded the cut-off
(so the entry whose inclusion crosses the percentile is still included). -/
def specVisited (maxSum : Nat) : List CallSize → Nat → List CallSize
  | [], _ => []
  | c :: rest, acc =>
    if maxSum < acc then [] else c :: specVisited maxSum rest (acc + c.calls)

/-- Modelled from the spec: the new pool-level `maxSize` — the largest class
size among the initial `defaultSize` and the sizes of the visited classes. -/
def specNewMaxSize (d0 : Nat) (visited : List CallSize) : Nat :=
  visited.foldl (fun m c => max m c.size) d0

/-- Modelled from the spec: the `defaultSize` produced by the 5% adjustment
pass of `unnamed/part_001` — starting from the top class's size, raise it to
the size of any visited class whose call count exceeds the spread
threshold. -/
def specAdjustedDefault (thr d0 : Nat) (visited : List CallSize) : Nat :=
  visited.foldl (fun d c => if thr < c.calls ∧ d < c.size then c.size else d) d0

/-- Modelled from the spec: the class-mapping contract
`ceil(log2(max(n,1) / minSize))` clamped to `[0, steps-1]`.  For the
rational `x = max(n,1) / minSize ≥ 1/minSize` one has
`ceil(log2 x) = Nat.clog 2 (ceil x)`, and `ceil x` is the rounded-up
integer division. -/
def specClass (n : Nat) : Nat :=
  min (Nat.clog 2 ((max n 1 + (minSize - 1)) / minSize)) (steps - 1)

/-- The `Pool` of `unnamed/part_001`: per-class release counters, the
calibration guard, the two adaptive sizes and a single free list
(`sync.Pool`, modelled as a LIFO list).  Only counter slots `< steps` are
ever read or written. -/
structure Pool where
  calls : Nat → Nat
  calibrating : Bool
  defaultSize : Nat
  maxSize : Nat
  pool : List ByteBuffer

/-- The zero value of `Pool` (`var defaultPool Pool`). -/
def Pool.initial : Pool :=
  { calls := fun _ => 0, calibrating := false, defaultSize := 0, maxSize := 0, pool := [] }

/-- The calibration snapshot of `unnamed/part_001`: one `(calls, size)`
pair per class, `size = minSize << i` (the counters are zeroed by the
same `atomic.SwapUint64` that reads them; the model zeroes them in
`Pool.calibrate` after building the list, which reads each slot once). -/
def Pool.snapshot (p : Pool) : List CallSize :=
  (List.range steps).map fun i => ⟨p.calls i, minSize * 2 ^ i⟩

/-- `Pool.calibrate` from `unnamed/part_001`.  The `CompareAndSwapUint64`
guard succeeds exactly when `calibrating` is `false`; the pass snapshots
and zeroes the counters, sorts by calls descending, computes
`maxSum = callsSum * maxPercentileNumer / maxPercentileDenom` and the
adjustment threshold
`defSizeAdjustCallsThreshold = a[0].calls * factorNumer / factorDenom`,
runs the fused walk over `a[1:]`, stores the results and releases the
guard. -/
def Pool.calibrate (p : Pool) : Pool :=
  if p.calibrating then p
  else
    let a := sortCalls p.snapshot
    let callsSum := (p.snapshot.map CallSize.calls).sum
    let a0 := a.headD ⟨0, 0⟩
    let maxSum := callsSum * maxPercentileNumer / maxPercentileDenom
    let thr := a0.calls * calibrateDefaultSizeAdjustmentsFactorNumer /
      calibrateDefaultSizeAdjustmentsFactorDenom
    let r := calibWalk thr maxSum a.tail a0.calls a0.size a0.size
    { calls := fun _ => 0, calibrating := false,
      defaultSize := r.1, maxSize := r.2, pool := p.pool }

/-- The first half of `Pool.Put` from `unnamed/part_001`: compute the
class of the buffer's logical length, bump that counter, and run
`calibrate` when the bumped counter exceeds the threshold. -/
def Pool.putMid (p : Pool) (b : ByteBuffer) : Pool :=
  let idx := index (b.len : Int)
  let p1 : Pool :=
    { p with calls := fun j => if j = idx then p.calls j + 1 else p.calls j }
  if calibrateCallsThreshold < p1.calls idx then p1.calibrate else p1

/-- `Pool.Put` from `unnamed/part_001`: after the counter/calibration
step, admit the buffer when `maxSize == 0 || cap(b.B) <= maxSize`
(the `maxSize` loaded after any calibration), resetting its length. -/
def Pool.put (p : Pool) (b : ByteBuffer) : Pool :=
  let p2 := p.putMid b
  if p2.maxSize = 0 ∨ b.cap ≤ p2.maxSize then
    { p2 with pool := { b with len := 0 } :: p2.pool }
  else p2

/-- `Pool.Get` from `unnamed/part_001`: pop a pooled buffer if one is
available (it is returned as stored, without a reset), otherwise allocate
`make([]byte, 0, defaultSize)`. -/
def Pool.get (p : Pool) : ByteBuffer × Pool :=
  match p.pool with
  | [] => (⟨0, p.defaultSize⟩, p)
  | b :: rest => (b, { p with pool := rest })

/-- States of the `unnamed/part_001` pool reachable from the zero value
by any sequence of `Get` and `Put` operations (buffers enter the free
list only through `Put`). -/
inductive Pool.Reachable : Pool → Prop
  | init : Pool.Reachable Pool.initial
  | get (s : Pool) : Pool.Reachable s → Pool.Reachable (s.get).2
  | put (s : Pool) (b : ByteBuffer) : Pool.Reachable s → Pool.Reachable (s.put b)

/-- The `byteBufferPool` of `pool.go`: per-class release counters, the
calibration guard, the adaptive sizes, the class-preference order `idxs`
and one free list per class (each `sync.Pool` modelled as a LIFO list).
Only slots `< steps` of `calls`/`idxs` are ever used. -/
structure byteBufferPool where
  calibrating : Bool
  defaultSize : Nat
  maxSize : Nat
  calls : Nat → Nat
  idxs : Nat → Nat
  pools : Nat → List ByteBuffer

/-- The zero value of `byteBufferPool`. -/
def byteBufferPool.initial : byteBufferPool :=
  { calibrating := false, defaultSize := 0, maxSize := 0,
    calls := fun _ => 0, idxs := fun _ => 0, pools := fun _ => [] }

/-- The calibration snapshot of `pool.go`: identical construction to the
`unnamed/part_001` one. -/
def byteBufferPool.snapshot (p : byteBufferPool) : List CallSize :=
  (List.range steps).map fun i => ⟨p.calls i, minSize * 2 ^ i⟩

/-- `byteBufferPool.calibrate` from `pool.go`.  Identical skeleton to the
`unnamed/part_001` pass but without the 5% adjustment, and additionally
storing the preference order `idxs`.  The source computes
`maxSum := uint64(float64(callsSum) * maxPercentile)`; for every
`callsSum` that can accumulate between calibrations (at most
`steps * (calibrateCallsThreshold + 1)`, far below `2 ^ 53`) that
`float64` expression is exactly `callsSum * 19 / 20`, which is how it is
modelled. -/
def byteBufferPool.calibrate (p : byteBufferPool) : byteBufferPool :=
  if p.calibrating then p
  else
    let a := sortCalls p.snapshot
    let callsSum := (p.snapshot.map CallSize.calls).sum
    let defaultSize := (a.headD ⟨0, 0⟩).size
    let maxSum := callsSum * maxPercentileNumer / maxPercentileDenom
    let r := calibLoopB maxSum a 0 defaultSize
    { calibrating := false, defaultSize := defaultSize, maxSize := r.1,
      calls := fun _ => 0,
      idxs := fun i => r.2.getD i (p.idxs i),
      pools := p.pools }

/-- The first half of `byteBufferPool.Release` from `pool.go`: clamp the
class of the buffer's logical length, bump that counter, and run
`calibrate` when the bumped counter exceeds the threshold. -/
def byteBufferPool.releaseMid (p : byteBufferPool) (b : ByteBuffer) :
    byteBufferPool :=
  let idx := clampIdx (indexU b.len)
  let p1 : byteBufferPool :=
    { p with calls := fun j => if j = idx then p.calls j + 1 else p.calls j }
  if calibrateCallsThreshold < p1.calls idx then p1.calibrate else p1

/-- `byteBufferPool.Release` from `pool.go`: after the
counter/calibration step, when `maxSize > 0 && bCap <= maxSize` reset
the buffer and insert it into `pools[index(bCap)]`.  That second `index`
call is unclamped; a value `>= steps` makes the Go array access panic,
modelled as `none`. -/
def byteBufferPool.release (p : byteBufferPool) (b : ByteBuffer) :
    Option byteBufferPool :=
  let p2 := p.releaseMid b
  if 0 < p2.maxSize ∧ b.cap ≤ p2.maxSize then
    let idx2 := indexU b.cap
    if idx2 < steps then
      some { p2 with pools := fun j =>
        if j = idx2 then { b with len := 0 } :: p2.pools j else p2.pools j }
    else none
  else some p2

/-- The scan loop of `byteBufferPool.Acquire` over positions `is`
(called with `[0, ..., steps-1]`): at position `i`, load `idx := idxs[i]`;
`idx >= steps` breaks out to a fresh allocation; otherwise try
`pools[idx].Get()` and move on when it is empty.  A fresh buffer is
`make([]byte, 0, defaultSize)`. -/
def byteBufferPool.acquireGo (p : byteBufferPool) :
    List Nat → ByteBuffer × byteBufferPool
  | [] => (⟨0, p.defaultSize⟩, p)
  | i :: rest =>
    let idx := p.idxs i
    if idx < steps then
      match p.pools idx with
      | [] => p.acquireGo rest
      | b :: tl =>
        (b, { p with pools := fun j => if j = idx then tl else p.pools j })
    else (⟨0, p.defaultSize⟩, p)

/-- `byteBufferPool.Acquire` from `pool.go`. -/
def byteBufferPool.acquire (p : byteBufferPool) : ByteBuffer × byteBufferPool :=
  p.acquireGo (List.range steps)

/-- States of the `pool.go` pool reachable from the zero value by
non-panicking `Acquire`/`Release` sequences. -/
inductive byteBufferPool.Reachable : byteBufferPool → Prop
  | init : byteBufferPool.Reachable byteBufferPool.initial
  | acquire (s : byteBufferPool) :
      byteBufferPool.Reachable s → byteBufferPool.Reachable (s.acquire).2
  | release (s t : byteBufferPool) (b : ByteBuffer) :
      byteBufferPool.Reachable s → s.release b = some t →
      byteBufferPool.Reachable t

/-- The `Pool` of `unnamed/part_000`, named `BinsPool` here to avoid a
clash with the `unnamed/part_001` type: like `Pool` but with a movable
class spectrum (`minBitSize`/`minSize` fields). -/
structure BinsPool where
  calls : Nat → Nat
  calibrating : Bool
  defaultSize : Nat
  maxSize : Nat
  minBitSize : Nat
  minSize : Nat
  pool : List ByteBuffer

/-- `Pool.initBins` from `unnamed/part_000`: set the spectrum base to the
default. -/
def BinsPool.initBins (p : BinsPool) : BinsPool :=
  { p with minBitSize := defaultMinBitSize, minSize := 2 ^ defaultMinBitSize }

/-- `Pool.resizeBins` from `unnamed/part_000`: move the spectrum base to
`mbs` and recompute `minSize = 1 << mbs`. -/
def BinsPool.resizeBins (p : BinsPool) (mbs : Nat) : BinsPool :=
  { p with minBitSize := mbs, minSize := 2 ^ mbs }

/-- The calibration snapshot of `unnamed/part_000`: sizes are based at
the pool's current `minSize`. -/
def BinsPool.snapshot (p : BinsPool) : List CallSize :=
  (List.range steps).map fun i => ⟨p.calls i, p.minSize * 2 ^ i⟩

/-- `Pool.calibrate` from `unnamed/part_000`: after the guard and a lazy
`initBins`, snapshot-and-zero the counters, then re-base the spectrum —
upward (`minBitSize + 1`) when `minBitSize + steps < 32` and the largest
class out-drew the smallest, otherwise downward (`minBitSize - 1`) when
`minBitSize > defaultMinBitSize`, the smallest class had calls and the
top two classes had none — then sort and run the percentile walk.  The
snapshot keeps the pre-re-basing sizes.  `maxSum` is modelled as in
`byteBufferPool.calibrate` (the same `float64` expression, exact in the
reachable range). -/
def BinsPool.calibrate (p : BinsPool) : BinsPool :=
  if p.calibrating then p
  else
    let p := if p.minBitSize = 0 then p.initBins else p
    let a := p.snapshot
    let callsSum := (a.map CallSize.calls).sum
    let p :=
      if p.minBitSize + steps < 32 ∧
          (a.getD 0 ⟨0, 0⟩).calls < (a.getD (steps - 1) ⟨0, 0⟩).calls then
        p.resizeBins (p.minBitSize + 1)
      else if defaultMinBitSize < p.minBitSize ∧ 0 < (a.getD 0 ⟨0, 0⟩).calls ∧
          (a.getD (steps - 2) ⟨0, 0⟩).calls = 0 ∧
          (a.getD (steps - 1) ⟨0, 0⟩).calls = 0 then
        p.resizeBins (p.minBitSize - 1)
      else p
    let a := sortCalls a
    let a0 := a.headD ⟨0, 0⟩
    let maxSum := callsSum * maxPercentileNumer / maxPercentileDenom
    let ms := simpleWalk maxSum a 0 a0.size
    { p with
        calls := fun _ => 0
        calibrating := false
        defaultSize := a0.size
        maxSize := ms }

/-- A concrete `unnamed/part_001` pool state: class 0 (size 64) has 100
releases, class 1 (size 128) has 96 — within the 5% spread of the top
class. -/
def exPoolC1 : Pool :=
  { calls := fun j => if j = 0 then 100 else if j = 1 then 96 else 0,
    calibrating := false, defaultSize := 0, maxSize := 0, pool := [] }

/-- A concrete `unnamed/part_001` pool state with class 0 exactly at the
calibration threshold, so the next release of a length-0 buffer triggers
a calibration pass. -/
def exPoolC10 : Pool :=
  { calls := fun j => if j = 0 then 42000 else 0,
    calibrating := false, defaultSize := 0, maxSize := 0, pool := [] }

/-- A concrete `unnamed/part_000` pool state at the default spectrum base
with traffic only in the smallest class. -/
def exBinsC9 : BinsPool :=
  { calls := fun j => if j = 0 then 7 else 0, calibrating := false,
    defaultSize := 64, maxSize := 64, minBitSize := 6, minSize := 64, pool := [] }

/-- A concrete `unnamed/part_000` pool state with a raised spectrum base
(`minBitSize = 7`) and traffic only in the smallest class while the top
two classes are silent. -/
def exBins7 : BinsPool :=
  { calls := fun j => if j = 0 then 5 else 0, calibrating := false,
    defaultSize := 128, maxSize := 128, minBitSize := 7, minSize := 128, pool := [] }

/-- A concrete `unnamed/part_001` pool state whose calibration guard is
taken. -/
def exPoolBusy : Pool :=
  { calls := fun j => if j = 3 then 50000 else 0, calibrating := true,
    defaultSize := 256, maxSize := 1024, pool := [⟨0, 256⟩] }

/-- A concrete `pool.go` pool state whose calibration guard is taken. -/
def exBPoolBusy : byteBufferPool :=
  { calibrating := true, defaultSize := 512, maxSize := 4096,
    calls := fun j => if j = 2 then 60000 else 0,
    idxs := fun j => j, pools := fun _ => [] }

/-- A concrete `unnamed/part_001` pool state after one calibration:
`maxSize = 64`, all counters far from the threshold. -/
def exPoolSmall : Pool :=
  { calls := fun j => if j = 0 then 10 else 0, calibrating := false,
    defaultSize := 64, maxSize := 64, pool := [] }

/-- A concrete `pool.go` pool state after one calibration:
`maxSize = 64`, all counters far from the threshold. -/
def exBPoolSmall : byteBufferPool :=
  { calibrating := false, defaultSize := 64, maxSize := 64,
    calls := fun j => if j = 0 then 10 else 0,
    idxs := fun j => j, pools := fun _ => [] }

theorem bitSizeAux_zero (f : Nat) : bitSizeAux f 0 = 0 := by
  cases f <;> rfl

theorem bitSizeAux_fuel : ∀ f g n : Nat, n ≤ f → n ≤ g → bitSizeAux f n = bitSizeAux g n := by
  intro f
  induction f with
  | zero =>
    intro g n hf _
    obtain rfl : n = 0 := Nat.le_zero.mp hf
    rw [bitSizeAux_zero, bitSizeAux_zero]
  | succ f ih =>
    intro g n hf hg
    match n, g with
    | 0, g => rw [bitSizeAux_zero, bitSizeAux_zero]
    | m + 1, g + 1 =>
      show bitSizeAux f ((m + 1) / 2) + 1 = bitSizeAux g ((m + 1) / 2) + 1
      have hlt : (m + 1) / 2 < m + 1 := Nat.div_lt_self (Nat.succ_pos m) one_lt_two
      have h1 : (m + 1) / 2 ≤ f := by omega
      have h2 : (m + 1) / 2 ≤ g := by omega
      rw [ih g ((m + 1) / 2) h1 h2]

theorem bitSize_succ (n : Nat) (h : 0 < n) : bitSize n = bitSize (n / 2) + 1 := by
  obtain ⟨m, rfl⟩ : ∃ m, n = m + 1 := ⟨n - 1, by omega⟩
  show bitSizeAux (m + 1) (m + 1) = bitSizeAux ((m + 1) / 2) ((m + 1) / 2) + 1
  show bitSizeAux m ((m + 1) / 2) + 1 = bitSizeAux ((m + 1) / 2) ((m + 1) / 2) + 1
  have hlt : (m + 1) / 2 < m + 1 := Nat.div_lt_self (Nat.succ_pos m) one_lt_two
  rw [bitSizeAux_fuel m ((m + 1) / 2) ((m + 1) / 2) (by omega) le_rfl]

theorem bitSize_bracket : ∀ (k n : Nat), 2 ^ k ≤ n → n < 2 ^ (k + 1) → bitSize n = k + 1 := by
  intro k
  induction k with
  | zero =>
    intro n h1 h2
    obtain rfl : n = 1 := by simpa using Nat.le_antisymm (by omega) h1
    rfl
  | succ k ih =>
    intro n h1 h2
    have hn : 0 < n := lt_of_lt_of_le (Nat.pos_pow_of_pos _ (by norm_num)) h1
    rw [bitSize_succ n hn]
    have h1h : 2 ^ k ≤ n / 2 := by
      rw [Nat.le_div_iff_mul_le (by norm_num)]
      calc 2 ^ k * 2 = 2 ^ (k + 1) := (pow_succ 2 k).symm
        _ ≤ n := h1
    have h2h : n / 2 < 2 ^ (k + 1) := by
      rw [Nat.div_lt_iff_lt_mul (by norm_num)]
      calc n < 2 ^ (k + 2) := h2
        _ = 2 ^ (k + 1) * 2 := pow_succ 2 (k + 1)
    rw [ih (n / 2) h1h h2h]

theorem bitSize_eq_log (n : Nat) (h : 0 < n) : bitSize n = Nat.log 2 n + 1 :=
  bitSize_bracket (Nat.log 2 n) n (Nat.pow_log_le_self 2 h.ne')
    (Nat.lt_pow_succ_log_self one_lt_two n)

theorem clog_two_succ (q : Nat) (h : 0 < q) : Nat.clog 2 (q + 1) = Nat.log 2 q + 1 := by
  refine le_antisymm ?_ ?_
  · rw [← Nat.le_pow_iff_clog_le one_lt_two]
    exact Nat.succ_le_of_lt (Nat.lt_pow_succ_log_self one_lt_two q)
  · exact Nat.succ_le_of_lt ((Nat.pow_lt_iff_lt_clog one_lt_two).mp
      (Nat.lt_succ_of_le (Nat.pow_log_le_self 2 h.ne')))

theorem fdiv_natCast (a b : Nat) : Int.fdiv (a : Int) (b : Int) = ((a / b : Nat) : Int) := by
  rw [Int.fdiv_eq_ediv] <;> simp [Int.ofNat_ediv]

theorem index_natCast_eq (n : Nat) : index (n : Int) = specClass n := by
  rcases Nat.eq_zero_or_pos n with rfl | hn
  · have hl : index ((0 : Nat) : Int) = 0 := by decide
    rw [hl]
    simp [specClass, minSize, minBitSize, Nat.clog_one_right]
  · have hcast : ((n : Int) - 1) = ((n - 1 : Nat) : Int) := by
      rw [Nat.cast_sub hn]; norm_num
    have h64 : ((2 : Int) ^ minBitSize) = ((64 : Nat) : Int) := by norm_num [minBitSize]
    have hfd : Int.fdiv ((n : Int) - 1) ((2 : Int) ^ minBitSize) =
        (((n - 1) / 64 : Nat) : Int) := by
      rw [hcast, h64, fdiv_natCast]
    have hmax : max n 1 = n := max_eq_left hn
    rcases Nat.eq_zero_or_pos ((n - 1) / 64) with hq | hq
    · have hn64 : n ≤ 64 := by
        by_contra hcon
        have : 1 ≤ (n - 1) / 64 := (Nat.one_le_div_iff (by norm_num)).mpr (by omega)
        omega
      have hdiv : (n + (minSize - 1)) / minSize = 1 := by
        have : minSize = 64 := by norm_num [minSize, minBitSize]
        rw [this]
        exact Nat.div_eq_of_lt_le (by omega) (by omega)
      simp only [index, indexBins, hfd, hq, specClass, hmax, hdiv, Nat.clog_one_right]
      norm_num [steps]
    · have hdiv : (n + (minSize - 1)) / minSize = (n - 1) / 64 + 1 := by
        have hms : minSize = 64 := by norm_num [minSize, minBitSize]
        rw [hms]
        have : n + (64 - 1) = (n - 1) + 64 := by omega
        rw [this, Nat.add_div_right _ (by norm_num)]
      simp only [index, indexBins, hfd, Int.natCast_pos, Int.toNat_natCast, specClass,
        hmax, hdiv, hq, if_true]
      rw [bitSize_eq_log _ hq, clog_two_succ _ hq]
      simp only [steps]
      split <;> omega

theorem specClass_monotone (m n : Nat) (h : m ≤ n) : specClass m ≤ specClass n := by
  unfold specClass
  refine min_le_min ?_ le_rfl
  exact Nat.clog_mono_right 2 (Nat.div_le_div_right (by omega))

theorem specClass_pow (i : Nat) (h : i < steps) : specClass (minSize * 2 ^ i) = i := by
  unfold specClass
  have hms : minSize = 64 := by norm_num [minSize, minBitSize]
  have hdiv : (max (minSize * 2 ^ i) 1 + (minSize - 1)) / minSize = 2 ^ i := by
    rw [hms]
    rw [max_eq_left (Nat.one_le_iff_ne_zero.mpr (by positivity))]
    have he : 64 * 2 ^ i + (64 - 1) = 63 + 2 ^ i * 64 := by ring_nf
    rw [he, Nat.add_mul_div_right 63 (2 ^ i) (by norm_num)]
    norm_num
  rw [hdiv, Nat.clog_pow 2 i one_lt_two]
  simp only [steps] at h ⊢
  omega

theorem specClass_pow_succ (i : Nat) (h : i + 1 < steps) :
    specClass (minSize * 2 ^ i + 1) = i + 1 := by
  unfold specClass
  have hms : minSize = 64 := by norm_num [minSize, minBitSize]
  have hdiv : (max (minSize * 2 ^ i + 1) 1 + (minSize - 1)) / minSize = 2 ^ i + 1 := by
    rw [hms]
    rw [max_eq_left (Nat.le_add_left 1 (64 * 2 ^ i))]
    have he : 64 * 2 ^ i + 1 + (64 - 1) = (2 ^ i + 1) * 64 := by ring_nf
    rw [he, Nat.mul_div_cancel _ (by norm_num : 0 < 64)]
  rw [hdiv, clog_two_succ _ (by positivity), Nat.log_pow one_lt_two]
  simp only [steps] at h ⊢
  omega

theorem specClass_big (n : Nat) (h : maxSizeConst ≤ n) : specClass n = steps - 1 := by
  unfold specClass
  refine min_eq_right ?_
  have h1 : (2 : Nat) ^ 19 ≤ (max n 1 + (minSize - 1)) / minSize := by
    have hle : (2 : Nat) ^ 25 ≤ max n 1 + (minSize - 1) := by
      have : (2 : Nat) ^ 25 ≤ n := by
        simpa [maxSizeConst, minBitSize, steps] using h
      calc (2 : Nat) ^ 25 ≤ n := this
        _ ≤ max n 1 := le_max_left n 1
        _ ≤ max n 1 + (minSize - 1) := Nat.le_add_right _ _
    calc (2 : Nat) ^ 19 = 2 ^ 25 / minSize := by norm_num [minSize, minBitSize]
      _ ≤ (max n 1 + (minSize - 1)) / minSize := Nat.div_le_div_right hle
  calc steps - 1 = Nat.clog 2 (2 ^ 19) := by
        rw [Nat.clog_pow 2 19 one_lt_two]; norm_num [steps]
    _ ≤ Nat.clog 2 ((max n 1 + (minSize - 1)) / minSize) := Nat.clog_mono_right 2 h1

/-- C3: the `unnamed/part_001` class-mapping function `index` equals
`ceil(log2(max(n,1) / minSize))` clamped to `[0, steps-1]`
(formalised through `specClass`, with `Nat.clog` of the rounded-up
division), hits the exact class boundaries
(`class(minSize·2^i) = i`, `class(minSize·2^i + 1) = i+1`), saturates at
and above `maxSize`, maps `0` to class `0`, and is monotone on
`[1, maxSize]`.  The last conjunct records the divergence of the
`pool.go` `uint64` variant at the failing input `n = 1`: `bitSize(0) - 6`
wraps around, so after `Release`'s clamp the class is `steps - 1`
instead of the `0` demanded by the claim and by `TestIndex` in
`pool_test.go`. -/
theorem C3_class_mapping :
    (∀ n : Nat, index (n : Int) = specClass n) ∧
    (∀ i : Nat, i < steps → index ((minSize * 2 ^ i : Nat) : Int) = i) ∧
    (∀ i : Nat, i + 1 < steps → index ((minSize * 2 ^ i + 1 : Nat) : Int) = i + 1) ∧
    (∀ n : Nat, maxSizeConst ≤ n → index (n : Int) = steps - 1) ∧
    index 0 = 0 ∧
    (∀ m n : Nat, 1 ≤ m → m ≤ n → n ≤ maxSizeConst →
      index (m : Int) ≤ index (n : Int)) ∧
    (index 1 = 0 ∧ indexU 1 = 2 ^ 64 - minBitSize ∧ clampIdx (indexU 1) = steps - 1) := by
  refine ⟨index_natCast_eq, ?_, ?_, ?_, by decide, ?_, by decide, by decide, by decide⟩
  · intro i h
    rw [index_natCast_eq, specClass_pow i h]
  · intro i h
    rw [index_natCast_eq, specClass_pow_succ i h]
  · intro n h
    rw [index_natCast_eq, specClass_big n h]
  · intro m n _ hmn _
    rw [index_natCast_eq, index_natCast_eq]
    exact specClass_monotone m n hmn

/-- Witness for `C3_class_mapping` at concrete inputs. -/
theorem C3_class_mapping_witness :
    index ((minSize * 2 ^ 5 : Nat) : Int) = 5 ∧
    index ((minSize * 2 ^ 5 + 1 : Nat) : Int) = 6 ∧
    index ((2 ^ 30 : Nat) : Int) = steps - 1 ∧
    index ((7 : Nat) : Int) ≤ index ((9000 : Nat) : Int) :=
  ⟨C3_class_mapping.2.1 5 (by norm_num [steps]),
   C3_class_mapping.2.2.1 5 (by norm_num [steps]),
   C3_class_mapping.2.2.2.1 (2 ^ 30) (by norm_num [maxSizeConst, minBitSize, steps]),
   C3_class_mapping.2.2.2.2.2.1 7 9000 (by norm_num) (by norm_num)
     (by norm_num [maxSizeConst, minBitSize, steps])⟩

theorem ite_max (a b : Nat) : (if a < b then b else a) = max a b := by
  split <;> omega

theorem specVisited_stop (maxSum acc : Nat) (l : List CallSize) (h : maxSum < acc) :
    specVisited maxSum l acc = [] := by
  cases l with
  | nil => rfl
  | cons c rest => simp [specVisited, h]

theorem calibWalk_eq (thr maxSum : Nat) :
    ∀ (l : List CallSize) (acc ds ms : Nat),
      calibWalk thr maxSum l acc ds ms =
        (specAdjustedDefault thr ds (specVisited maxSum l acc),
         specNewMaxSize ms (specVisited maxSum l acc)) := by
  intro l
  induction l with
  | nil =>
    intro acc ds ms
    simp [calibWalk, specVisited, specAdjustedDefault, specNewMaxSize]
  | cons c rest ih =>
    intro acc ds ms
    by_cases h : maxSum < acc
    · simp [calibWalk, specVisited, h, specAdjustedDefault, specNewMaxSize]
    · simp only [calibWalk, specVisited, if_neg h, ih, specAdjustedDefault,
        specNewMaxSize, List.foldl_cons, ite_max]

theorem calibLoopB_fst (maxSum : Nat) :
    ∀ (l : List CallSize) (acc ms : Nat),
      (calibLoopB maxSum l acc ms).1 = specNewMaxSize ms (specVisited maxSum l acc) := by
  intro l
  induction l with
  | nil =>
    intro acc ms
    simp [calibLoopB, specVisited, specNewMaxSize]
  | cons c rest ih =>
    intro acc ms
    by_cases h : acc ≤ maxSum
    · have hn : ¬maxSum < acc := not_lt.mpr h
      simp only [calibLoopB, if_pos h, specVisited, if_neg hn, ih,
        specNewMaxSize, List.foldl_cons, ite_max]
    · have hl : maxSum < acc := not_le.mp h
      simp only [calibLoopB, if_neg h, specVisited, if_pos hl, ih,
        specVisited_stop _ _ _ hl, specNewMaxSize, List.foldl_nil]

theorem sortCalls_perm (l : List CallSize) : List.Perm (sortCalls l) l :=
  List.perm_insertionSort callGE l

theorem sortCalls_sorted (l : List CallSize) : List.Sorted callGE (sortCalls l) :=
  List.sorted_insertionSort callGE l

theorem headD_mem (l : List CallSize) (d : CallSize) (h : l ≠ []) : l.headD d ∈ l := by
  cases l with
  | nil => exact absurd rfl h
  | cons a t => simp

theorem sortCalls_ne_nil (l : List CallSize) (h : l ≠ []) : sortCalls l ≠ [] := by
  intro hc
  apply h
  have hlen := (sortCalls_perm l).length_eq
  rw [hc] at hlen
  exact List.length_eq_zero.mp hlen.symm

theorem head_calls_max (l : List CallSize) (c : CallSize) (hc : c ∈ l) :
    c.calls ≤ ((sortCalls l).headD ⟨0, 0⟩).calls := by
  have hmem : c ∈ sortCalls l := ((sortCalls_perm l).mem_iff).mpr hc
  have hne : sortCalls l ≠ [] := by
    intro h
    rw [h] at hmem
    exact absurd hmem (List.not_mem_nil c)
  obtain ⟨a, t, he⟩ := List.exists_cons_of_ne_nil hne
  rw [he] at hmem ⊢
  rcases List.mem_cons.mp hmem with rfl | ht
  · simp
  · have hs := sortCalls_sorted l
    rw [he] at hs
    have := (List.sorted_cons.mp hs).1 c ht
    simpa [callGE] using this

theorem snapshot_mem (p : Pool) (i : Nat) (h : i < steps) :
    (⟨p.calls i, minSize * 2 ^ i⟩ : CallSize) ∈ p.snapshot := by
  simp only [Pool.snapshot, List.mem_map]
  exact ⟨i, List.mem_range.mpr h, rfl⟩

theorem snapshotB_mem (p : byteBufferPool) (i : Nat) (h : i < steps) :
    (⟨p.calls i, minSize * 2 ^ i⟩ : CallSize) ∈ p.snapshot := by
  simp only [byteBufferPool.snapshot, List.mem_map]
  exact ⟨i, List.mem_range.mpr h, rfl⟩

theorem snapshot_ne_nil (p : Pool) : p.snapshot ≠ [] := by
  simp [Pool.snapshot, steps]

theorem snapshotB_ne_nil (p : byteBufferPool) : p.snapshot ≠ [] := by
  simp [byteBufferPool.snapshot, steps]

theorem div_19_20_95_100 (c : Nat) : c * 19 / 20 = c * 95 / 100 := by omega

theorem percentile_numer_denom (c : Nat) :
    c * maxPercentileNumer / maxPercentileDenom = c * 95 / 100 := by
  have h1 : maxPercentileNumer = 19 := rfl
  have h2 : maxPercentileDenom = 20 := rfl
  rw [h1, h2, div_19_20_95_100]

theorem adjust_numer_denom (c : Nat) :
    c * calibrateDefaultSizeAdjustmentsFactorNumer /
      calibrateDefaultSizeAdjustmentsFactorDenom = c * 95 / 100 := by
  have h1 : calibrateDefaultSizeAdjustmentsFactorNumer = 19 := rfl
  have h2 : calibrateDefaultSizeAdjustmentsFactorDenom = 20 := rfl
  rw [h1, h2, div_19_20_95_100]

theorem pool_calibrate_run (p : Pool) (hp : p.calibrating = false) :
    p.calibrate =
      { calls := fun _ => 0, calibrating := false,
        defaultSize :=
          specAdjustedDefault
            (((sortCalls p.snapshot).headD ⟨0, 0⟩).calls * 95 / 100)
            (((sortCalls p.snapshot).headD ⟨0, 0⟩).size)
            (specVisited ((p.snapshot.map CallSize.calls).sum * 95 / 100)
              (sortCalls p.snapshot) 0),
        maxSize :=
          specNewMaxSize (((sortCalls p.snapshot).headD ⟨0, 0⟩).size)
            (specVisited ((p.snapshot.map CallSize.calls).sum * 95 / 100)
              (sortCalls p.snapshot) 0),
        pool := p.pool } := by
  unfold Pool.calibrate
  rw [if_neg (by simp [hp])]
  obtain ⟨a0, t, he⟩ := List.exists_cons_of_ne_nil
    (sortCalls_ne_nil p.snapshot (snapshot_ne_nil p))
  simp only [he, List.headD_cons, List.tail_cons, calibWalk_eq,
    percentile_numer_denom, adjust_numer_denom]
  have hv : specVisited ((p.snapshot.map CallSize.calls).sum * 95 / 100)
      (a0 :: t) 0 =
      a0 :: specVisited ((p.snapshot.map CallSize.calls).sum * 95 / 100) t
        a0.calls := by
    simp [specVisited]
  rw [hv]
  have hds : specAdjustedDefault (a0.calls * 95 / 100) a0.size
      (a0 :: specVisited ((p.snapshot.map CallSize.calls).sum * 95 / 100) t
        a0.calls) =
      specAdjustedDefault (a0.calls * 95 / 100) a0.size
        (specVisited ((p.snapshot.map CallSize.calls).sum * 95 / 100) t
          a0.calls) := by
    simp [specAdjustedDefault]
  have hms : specNewMaxSize a0.size
      (a0 :: specVisited ((p.snapshot.map CallSize.calls).sum * 95 / 100) t
        a0.calls) =
      specNewMaxSize a0.size
        (specVisited ((p.snapshot.map CallSize.calls).sum * 95 / 100) t
          a0.calls) := by
    simp [specNewMaxSize]
  rw [hds, hms]

theorem bpool_calibrate_run (q : byteBufferPool) (hq : q.calibrating = false) :
    (q.calibrate).defaultSize = ((sortCalls q.snapshot).headD ⟨0, 0⟩).size ∧
    (q.calibrate).maxSize =
      specNewMaxSize (((sortCalls q.snapshot).headD ⟨0, 0⟩).size)
        (specVisited ((q.snapshot.map CallSize.calls).sum * 95 / 100)
          (sortCalls q.snapshot) 0) := by
  unfold byteBufferPool.calibrate
  rw [if_neg (by simp [hq])]
  simp only [calibLoopB_fst, percentile_numer_denom]
  exact ⟨by trivial, by trivial⟩

/-- C1 counterexample: in the concrete state `exPoolC1`, class 0
(size 64) received the most release calls (100, against 96 for class 1),
so the first element after sorting by calls descending is `(100, 64)`;
yet the completed calibration pass sets `defaultSize = 128`, not 64 —
the 5% adjustment of `unnamed/part_001` raises it past the top class. -/
theorem C1_counterexample :
    (sortCalls exPoolC1.snapshot).headD ⟨0, 0⟩ = ⟨100, 64⟩ ∧
    (exPoolC1.calibrate).defaultSize = 128 := by decide

/-- C1 (amended): after a completed calibration pass, the `pool.go`
variant's `defaultSize` is exactly the size of the first element of the
calls-descending sorted snapshot (a class of maximal call count); the
`unnamed/part_001` variant starts from that size but additionally raises
it to the largest size among the percentile-visited classes whose call
count exceeds `⌊a₀.calls·95/100⌋` (the 5% spread adjustment). -/
theorem C1_default_size :
    (∀ p : Pool, p.calibrating = false →
      (p.calibrate).defaultSize =
        specAdjustedDefault
          (((sortCalls p.snapshot).headD ⟨0, 0⟩).calls * 95 / 100)
          (((sortCalls p.snapshot).headD ⟨0, 0⟩).size)
          (specVisited ((p.snapshot.map CallSize.calls).sum * 95 / 100)
            (sortCalls p.snapshot) 0)) ∧
    (∀ q : byteBufferPool, q.calibrating = false →
      ((q.calibrate).defaultSize = ((sortCalls q.snapshot).headD ⟨0, 0⟩).size ∧
        ∀ i : Nat, i < steps →
          q.calls i ≤ ((sortCalls q.snapshot).headD ⟨0, 0⟩).calls)) := by
  constructor
  · intro p hp
    rw [pool_calibrate_run p hp]
  · intro q hq
    refine ⟨(bpool_calibrate_run q hq).1, ?_⟩
    intro i hi
    exact head_calls_max q.snapshot _ (snapshotB_mem q i hi)

/-- Witness for `C1_default_size` at the concrete state `exPoolSmall`. -/
theorem C1_default_size_witness :
    (exPoolSmall.calibrate).defaultSize =
      specAdjustedDefault
        (((sortCalls exPoolSmall.snapshot).headD ⟨0, 0⟩).calls * 95 / 100)
        (((sortCalls exPoolSmall.snapshot).headD ⟨0, 0⟩).size)
        (specVisited ((exPoolSmall.snapshot.map CallSize.calls).sum * 95 / 100)
          (sortCalls exPoolSmall.snapshot) 0) :=
  C1_default_size.1 exPoolSmall rfl

/-- C2: after a completed calibration pass, in both the
`unnamed/part_001` and the `pool.go` variants, the new pool-level
`maxSize` is the largest class size among the top class's size (the
initial `defaultSize`) and the sizes of the classes visited by the walk
over the calls-descending sorted snapshot, which stops once the running
call sum exceeds `⌊callsSum·95/100⌋` — the class whose inclusion crosses
the percentile is still included (`specVisited` keeps an entry whenever
the sum of the preceding entries has not yet exceeded the cut-off). -/
theorem C2_max_size :
    (∀ p : Pool, p.calibrating = false →
      (p.calibrate).maxSize =
        specNewMaxSize (((sortCalls p.snapshot).headD ⟨0, 0⟩).size)
          (specVisited ((p.snapshot.map CallSize.calls).sum * 95 / 100)
            (sortCalls p.snapshot) 0)) ∧
    (∀ q : byteBufferPool, q.calibrating = false →
      (q.calibrate).maxSize =
        specNewMaxSize (((sortCalls q.snapshot).headD ⟨0, 0⟩).size)
          (specVisited ((q.snapshot.map CallSize.calls).sum * 95 / 100)
            (sortCalls q.snapshot) 0)) := by
  constructor
  · intro p hp
    rw [pool_calibrate_run p hp]
  · intro q hq
    exact (bpool_calibrate_run q hq).2

/-- Witness for `C2_max_size` at the concrete state `exBPoolSmall`. -/
theorem C2_max_size_witness :
    (exBPoolSmall.calibrate).maxSize =
      specNewMaxSize (((sortCalls exBPoolSmall.snapshot).headD ⟨0, 0⟩).size)
        (specVisited ((exBPoolSmall.snapshot.map CallSize.calls).sum * 95 / 100)
          (sortCalls exBPoolSmall.snapshot) 0) :=
  C2_max_size.2 exBPoolSmall rfl

/-- C6: for every `callsSum` up to `callsSumMaxValue = steps ×
calibrateCallsThreshold = 840000`, the fixed-point products of
`unnamed/part_001` fit in a `uint64` (no wrap-around in
`callsSum * maxPercentileNumer` or the adjustment product) and the
truncated quotients equal the exact rational values
`⌊callsSum · 95/100⌋` — the integer arithmetic agrees with the ratio it
approximates. -/
theorem C6_fixed_point :
    (∀ c : Nat, c ≤ callsSumMaxValue →
      c * maxPercentileNumer < 2 ^ 64 ∧
      c * maxPercentileNumer % 2 ^ 64 / maxPercentileDenom = c * 95 / 100) ∧
    (∀ c : Nat, c ≤ callsSumMaxValue →
      c * calibrateDefaultSizeAdjustmentsFactorNumer < 2 ^ 64 ∧
      c * calibrateDefaultSizeAdjustmentsFactorNumer % 2 ^ 64 /
          calibrateDefaultSizeAdjustmentsFactorDenom = c * 95 / 100) := by
  have hb : ∀ c : Nat, c ≤ callsSumMaxValue → c * 19 < 2 ^ 64 := by
    intro c hc
    have : callsSumMaxValue = 840000 := rfl
    calc c * 19 ≤ 840000 * 19 := by
          exact Nat.mul_le_mul_right 19 (this ▸ hc)
      _ < 2 ^ 64 := by norm_num
  constructor
  · intro c hc
    have h19 : maxPercentileNumer = 19 := rfl
    have h20 : maxPercentileDenom = 20 := rfl
    rw [h19, h20]
    refine ⟨hb c hc, ?_⟩
    rw [Nat.mod_eq_of_lt (hb c hc), div_19_20_95_100]
  · intro c hc
    have h19 : calibrateDefaultSizeAdjustmentsFactorNumer = 19 := rfl
    have h20 : calibrateDefaultSizeAdjustmentsFactorDenom = 20 := rfl
    rw [h19, h20]
    refine ⟨hb c hc, ?_⟩
    rw [Nat.mod_eq_of_lt (hb c hc), div_19_20_95_100]

/-- Witness for `C6_fixed_point` at the maximal accumulated count. -/
theorem C6_fixed_point_witness :
    840000 * maxPercentileNumer < 2 ^ 64 ∧
    840000 * maxPercentileNumer % 2 ^ 64 / maxPercentileDenom =
      840000 * 95 / 100 :=
  C6_fixed_point.1 840000 (by norm_num [callsSumMaxValue, steps, calibrateCallsThreshold])

/-- C7: a calibration attempt that finds the guard already taken
(`CompareAndSwapUint64(&p.calibrating, 0, 1)` fails) returns immediately
and leaves the entire pool state unchanged, in both the
`unnamed/part_001` and the `pool.go` variants. -/
theorem C7_calibrate_guard :
    (∀ p : Pool, p.calibrating = true → p.calibrate = p) ∧
    (∀ q : byteBufferPool, q.calibrating = true → q.calibrate = q) := by
  constructor
  · intro p hp
    unfold Pool.calibrate
    rw [if_pos hp]
  · intro q hq
    unfold byteBufferPool.calibrate
    rw [if_pos hq]

/-- Witness for `C7_calibrate_guard` at the concrete busy states. -/
theorem C7_calibrate_guard_witness :
    exPoolBusy.calibrate = exPoolBusy ∧ exBPoolBusy.calibrate = exBPoolBusy :=
  ⟨C7_calibrate_guard.1 exPoolBusy rfl, C7_calibrate_guard.2 exBPoolBusy rfl⟩

theorem calibrate_pool_eq (p : Pool) : (p.calibrate).pool = p.pool := by
  unfold Pool.calibrate
  split
  · rfl
  · rfl

theorem putMid_no_trigger (p : Pool) (b : ByteBuffer)
    (h : p.calls (index (b.len : Int)) + 1 ≤ calibrateCallsThreshold) :
    p.putMid b =
      { p with calls := fun j =>
          if j = index (b.len : Int) then p.calls j + 1 else p.calls j } := by
  unfold Pool.putMid
  rw [if_neg]
  simp only [if_pos rfl]
  exact not_lt.mpr h

theorem bump_calls_self (q : byteBufferPool) (idx : Nat) :
    ({ q with calls := fun j =>
        if j = idx then q.calls j + 1 else q.calls j } : byteBufferPool).calls idx =
      q.calls idx + 1 := by
  simp

theorem update_calls_maxSize (q : byteBufferPool) (f : Nat → Nat) :
    ({ q with calls := f } : byteBufferPool).maxSize = q.maxSize := rfl

theorem releaseMid_no_trigger (q : byteBufferPool) (b : ByteBuffer)
    (h : q.calls (clampIdx (indexU b.len)) + 1 ≤ calibrateCallsThreshold) :
    q.releaseMid b =
      { q with calls := fun j =>
          if j = clampIdx (indexU b.len) then q.calls j + 1 else q.calls j } := by
  dsimp only [byteBufferPool.releaseMid]
  rw [if_pos (rfl : clampIdx (indexU b.len) = clampIdx (indexU b.len))]
  rw [if_neg (not_lt.mpr h)]

theorem release_no_trigger_drop (q : byteBufferPool) (b : ByteBuffer)
    (h : q.calls (clampIdx (indexU b.len)) + 1 ≤ calibrateCallsThreshold)
    (hm : ¬(0 < q.maxSize ∧ b.cap ≤ q.maxSize)) :
    q.release b = some
      { q with calls := fun j =>
          if j = clampIdx (indexU b.len) then q.calls j + 1 else q.calls j } := by
  dsimp only [byteBufferPool.release]
  rw [releaseMid_no_trigger q b h]
  dsimp only []
  rw [if_neg hm]

/-- C4 counterexample: in the zero-value `unnamed/part_001` pool the
pool-level `maxSize` is `0`, so a released buffer of capacity `5`
exceeds it; yet `Put` inserts the buffer into the free list (the
`maxSize == 0` escape of the admission test), growing the retained
buffer count from 0 to 1. -/
theorem C4_counterexample :
    Pool.initial.maxSize < (ByteBuffer.mk 0 5).cap ∧
    Pool.initial.pool = [] ∧
    (Pool.initial.put ⟨0, 5⟩).pool = [⟨0, 5⟩] := by decide

/-- C4 (amended): provided the release does not push the class counter
past the calibration threshold, a buffer whose capacity exceeds the
pool-level `maxSize` is dropped and every free list is left unchanged —
unconditionally in the `pool.go` variant (whose state change is exactly
the counter bump), and under the extra hypothesis `maxSize ≠ 0` in the
`unnamed/part_001` variant (its admission test `maxSize == 0 ||
cap(b.B) <= maxSize` retains everything while `maxSize` is zero). -/
theorem C4_oversized_drop :
    (∀ (p : Pool) (b : ByteBuffer),
      p.calls (index (b.len : Int)) + 1 ≤ calibrateCallsThreshold →
      p.maxSize ≠ 0 → p.maxSize < b.cap →
      (p.put b).pool = p.pool) ∧
    (∀ (q : byteBufferPool) (b : ByteBuffer),
      q.calls (clampIdx (indexU b.len)) + 1 ≤ calibrateCallsThreshold →
      q.maxSize < b.cap →
      q.release b = some
        { q with calls := fun j =>
            if j = clampIdx (indexU b.len) then q.calls j + 1 else q.calls j }) := by
  constructor
  · intro p b h hz hcap
    unfold Pool.put
    rw [putMid_no_trigger p b h]
    rw [if_neg]
    simp only [not_or, not_le]
    exact ⟨hz, hcap⟩
  · intro q b h hcap
    exact release_no_trigger_drop q b h (by
      rintro ⟨_, hle⟩
      omega)

/-- Witness for `C4_oversized_drop`: `exPoolSmall` has `maxSize = 64`
and low counters; releasing a capacity-100 buffer leaves its free list
unchanged. -/
theorem C4_oversized_drop_witness :
    (exPoolSmall.put ⟨0, 100⟩).pool = exPoolSmall.pool :=
  C4_oversized_drop.1 exPoolSmall ⟨0, 100⟩ (by decide) (by decide) (by decide)

/-- C10 counterexample: `exPoolC10` has `maxSize = 0` and no calibration
pass has stored a result, yet `Put` of a capacity-100 buffer does not
retain it: the release itself pushes class 0 past the threshold, the
triggered calibration stores `maxSize = 64`, and the admission test then
drops the buffer. -/
theorem C10_counterexample :
    exPoolC10.maxSize = 0 ∧ (exPoolC10.put ⟨0, 100⟩).pool = [] := by decide

/-- C10 (amended): while the pool-level `maxSize` is zero and the
release does not trigger a calibration pass, `unnamed/part_001`'s `Put`
retains every released buffer regardless of capacity (resetting its
length), whereas `pool.go`'s `Release` drops every released buffer (its
only state change is the counter bump). -/
theorem C10_zero_max_size :
    (∀ (p : Pool) (b : ByteBuffer),
      p.calls (index (b.len : Int)) + 1 ≤ calibrateCallsThreshold →
      p.maxSize = 0 →
      (p.put b).pool = { b with len := 0 } :: p.pool) ∧
    (∀ (q : byteBufferPool) (b : ByteBuffer),
      q.calls (clampIdx (indexU b.len)) + 1 ≤ calibrateCallsThreshold →
      q.maxSize = 0 →
      q.release b = some
        { q with calls := fun j =>
            if j = clampIdx (indexU b.len) then q.calls j + 1 else q.calls j }) := by
  constructor
  · intro p b h hz
    unfold Pool.put
    rw [putMid_no_trigger p b h]
    rw [if_pos (Or.inl hz)]
  · intro q b h hz
    exact release_no_trigger_drop q b h (by
      rintro ⟨hpos, _⟩
      omega)

/-- Witness for `C10_zero_max_size` at the zero-value pool. -/
theorem C10_zero_max_size_witness :
    (Pool.initial.put ⟨0, 7⟩).pool = [⟨0, 7⟩] :=
  C10_zero_max_size.1 Pool.initial ⟨0, 7⟩ (by decide) (by decide)

theorem get_snd_fields (s : Pool) :
    ((s.get).2).defaultSize = s.defaultSize ∧ ((s.get).2).maxSize = s.maxSize ∧
      ((s.get).2).calibrating = s.calibrating := by
  unfold Pool.get
  cases s.pool <;> exact ⟨rfl, rfl, rfl⟩

theorem get_pool_subset (s : Pool) (b : ByteBuffer) (hb : b ∈ ((s.get).2).pool) :
    b ∈ s.pool := by
  unfold Pool.get at hb
  cases hp : s.pool with
  | nil =>
    rw [← hp]
    rw [hp] at hb
    exact hb
  | cons c rest =>
    rw [hp] at hb
    exact List.mem_cons_of_mem c hb

theorem putMid_pool_eq (p : Pool) (b : ByteBuffer) : ((p.putMid b).pool) = p.pool := by
  dsimp only [Pool.putMid]
  rw [if_pos (rfl : index (b.len : Int) = index (b.len : Int))]
  split
  · rw [calibrate_pool_eq]
  · rfl

theorem put_pool_mem (p : Pool) (bb b : ByteBuffer) (hb : b ∈ (p.put bb).pool) :
    b = { bb with len := 0 } ∨ b ∈ p.pool := by
  dsimp only [Pool.put] at hb
  split at hb
  · rcases List.mem_cons.mp hb with rfl | hmem
    · exact Or.inl rfl
    · exact Or.inr (putMid_pool_eq p bb ▸ hmem)
  · exact Or.inr (putMid_pool_eq p bb ▸ hb)

theorem reachable_pool_len0 (s : Pool) (h : Pool.Reachable s) :
    ∀ b ∈ s.pool, b.len = 0 := by
  induction h with
  | init => intro b hb; exact absurd hb (List.not_mem_nil b)
  | get s hs ih => intro b hb; exact ih b (get_pool_subset s b hb)
  | put s bb hs ih =>
    intro b hb
    rcases put_pool_mem s bb b hb with rfl | hmem
    · rfl
    · exact ih b hmem

theorem calibrateB_pools_eq (q : byteBufferPool) : ((q.calibrate).pools) = q.pools := by
  unfold byteBufferPool.calibrate
  split
  · rfl
  · rfl

theorem releaseMid_pools_eq (q : byteBufferPool) (b : ByteBuffer) :
    ((q.releaseMid b).pools) = q.pools := by
  dsimp only [byteBufferPool.releaseMid]
  rw [if_pos (rfl : clampIdx (indexU b.len) = clampIdx (indexU b.len))]
  split
  · rw [calibrateB_pools_eq]
  · rfl

theorem release_pools_mem (q t : byteBufferPool) (bb : ByteBuffer)
    (hrel : q.release bb = some t) (j : Nat) (b : ByteBuffer)
    (hb : b ∈ t.pools j) : b = { bb with len := 0 } ∨ b ∈ q.pools j := by
  dsimp only [byteBufferPool.release] at hrel
  split at hrel
  · split at hrel
    · injection hrel with h2
      rw [← h2] at hb
      dsimp only at hb
      by_cases hj : j = indexU bb.cap
      · rw [if_pos hj] at hb
        rcases List.mem_cons.mp hb with rfl | hmem
        · exact Or.inl rfl
        · exact Or.inr (releaseMid_pools_eq q bb ▸ hmem)
      · rw [if_neg hj] at hb
        exact Or.inr (releaseMid_pools_eq q bb ▸ hb)
    · exact absurd hrel (by simp)
  · injection hrel with h2
    rw [← h2] at hb
    exact Or.inr (releaseMid_pools_eq q bb ▸ hb)

theorem acquireGo_pools_subset (q : byteBufferPool) :
    ∀ (is : List Nat) (j : Nat) (b : ByteBuffer),
      b ∈ ((q.acquireGo is).2).pools j → b ∈ q.pools j := by
  intro is
  induction is with
  | nil => intro j b hb; exact hb
  | cons i rest ih =>
    intro j b hb
    dsimp only [byteBufferPool.acquireGo] at hb
    by_cases hidx : q.idxs i < steps
    · rw [if_pos hidx] at hb
      rcases hpl : q.pools (q.idxs i) with _ | ⟨c, tl⟩
      · rw [hpl] at hb
        exact ih j b hb
      · rw [hpl] at hb
        dsimp only at hb
        by_cases hj : j = q.idxs i
        · subst hj
          rw [if_pos rfl] at hb
          rw [hpl]
          exact List.mem_cons_of_mem c hb
        · rw [if_neg hj] at hb
          exact hb
    · rw [if_neg hidx] at hb
      exact hb

theorem reachableB_pools_len0 (s : byteBufferPool) (h : byteBufferPool.Reachable s) :
    ∀ (j : Nat), ∀ b ∈ s.pools j, b.len = 0 := by
  induction h with
  | init => intro j b hb; exact absurd hb (List.not_mem_nil b)
  | acquire s hs ih =>
    intro j b hb
    exact ih j b (acquireGo_pools_subset s (List.range steps) j b hb)
  | release s t bb hs hrel ih =>
    intro j b hb
    rcases release_pools_mem s t bb hrel j b hb with rfl | hmem
    · rfl
    · exact ih j b hmem

theorem acquireGo_len0 (q : byteBufferPool)
    (hq : ∀ (j : Nat), ∀ b ∈ q.pools j, b.len = 0) :
    ∀ is : List Nat, (((q.acquireGo is).1)).len = 0 := by
  intro is
  induction is with
  | nil => rfl
  | cons i rest ih =>
    dsimp only [byteBufferPool.acquireGo]
    by_cases hidx : q.idxs i < steps
    · rw [if_pos hidx]
      rcases hpl : q.pools (q.idxs i) with _ | ⟨c, tl⟩
      · exact ih
      · exact hq (q.idxs i) c (by rw [hpl]; exact List.mem_cons_self c tl)
    · rw [if_neg hidx]

/-- C5: in every pool state reachable by acquire/release sequences
(buffers enter the free lists only through release, which resets them),
the buffer returned by an acquire has logical length zero — in the
`unnamed/part_001` variant (`Pool.Get`, which returns a pooled buffer
as stored or a fresh `make([]byte, 0, defaultSize)`) and in the
`pool.go` variant (`byteBufferPool.Acquire`). -/
theorem C5_acquire_len_zero :
    (∀ s : Pool, Pool.Reachable s → (((s.get).1)).len = 0) ∧
    (∀ s : byteBufferPool, byteBufferPool.Reachable s →
      (((s.acquire).1)).len = 0) := by
  constructor
  · intro s hs
    have hinv := reachable_pool_len0 s hs
    unfold Pool.get
    cases hp : s.pool with
    | nil => rfl
    | cons c rest => exact hinv c (hp ▸ List.mem_cons_self c rest)
  · intro s hs
    exact acquireGo_len0 s (reachableB_pools_len0 s hs) (List.range steps)

/-- Witness for `C5_acquire_len_zero` at the reachable state obtained
from the zero-value pool by one release of a 100-byte-capacity buffer
followed by the resulting acquire. -/
theorem C5_acquire_len_zero_witness :
    (((Pool.initial.put ⟨3, 100⟩).get).1).len = 0 :=
  C5_acquire_len_zero.1 (Pool.initial.put ⟨3, 100⟩)
    (Pool.Reachable.put Pool.initial ⟨3, 100⟩ Pool.Reachable.init)

theorem foldl_adjust_cases (thr : Nat) :
    ∀ (v : List CallSize) (d0 : Nat),
      specAdjustedDefault thr d0 v = d0 ∨
        ∃ c, c ∈ v ∧ specAdjustedDefault thr d0 v = c.size := by
  intro v
  induction v with
  | nil => intro d0; left; rfl
  | cons c rest ih =>
    intro d0
    have hstep : specAdjustedDefault thr d0 (c :: rest) =
        specAdjustedDefault thr
          (if thr < c.calls ∧ d0 < c.size then c.size else d0) rest := rfl
    rcases ih (if thr < c.calls ∧ d0 < c.size then c.size else d0) with h | ⟨c2, hc2, he⟩
    · by_cases hc : thr < c.calls ∧ d0 < c.size
      · right
        refine ⟨c, List.mem_cons_self c rest, ?_⟩
        rw [hstep, h, if_pos hc]
      · left
        rw [hstep, h, if_neg hc]
    · right
      exact ⟨c2, List.mem_cons_of_mem c hc2, hstep ▸ he⟩

theorem foldl_max_cases :
    ∀ (v : List CallSize) (d0 : Nat),
      specNewMaxSize d0 v = d0 ∨
        ∃ c, c ∈ v ∧ specNewMaxSize d0 v = c.size := by
  intro v
  induction v with
  | nil => intro d0; left; rfl
  | cons c rest ih =>
    intro d0
    have hstep : specNewMaxSize d0 (c :: rest) =
        specNewMaxSize (max d0 c.size) rest := rfl
    rcases ih (max d0 c.size) with h | ⟨c2, hc2, he⟩
    · rcases max_choice d0 c.size with hmx | hmx
      · left
        rw [hstep, h, hmx]
      · right
        refine ⟨c, List.mem_cons_self c rest, ?_⟩
        rw [hstep, h, hmx]
    · right
      exact ⟨c2, List.mem_cons_of_mem c hc2, hstep ▸ he⟩

theorem specVisited_subset (maxSum : Nat) :
    ∀ (l : List CallSize) (acc : Nat) (c : CallSize),
      c ∈ specVisited maxSum l acc → c ∈ l := by
  intro l
  induction l with
  | nil => intro acc c hc; exact absurd hc (List.not_mem_nil c)
  | cons d rest ih =>
    intro acc c hc
    dsimp only [specVisited] at hc
    by_cases h : maxSum < acc
    · rw [if_pos h] at hc
      exact absurd hc (List.not_mem_nil c)
    · rw [if_neg h] at hc
      rcases List.mem_cons.mp hc with rfl | hmem
      · exact List.mem_cons_self c rest
      · exact List.mem_cons_of_mem d (ih (acc + d.calls) c hmem)

theorem snapshot_size_form (p : Pool) (c : CallSize) (hc : c ∈ p.snapshot) :
    ∃ i, i < steps ∧ c.size = minSize * 2 ^ i := by
  simp only [Pool.snapshot, List.mem_map, List.mem_range] at hc
  obtain ⟨i, hi, rfl⟩ := hc
  exact ⟨i, hi, rfl⟩

theorem snapshotB_size_form (q : byteBufferPool) (c : CallSize)
    (hc : c ∈ q.snapshot) : ∃ i, i < steps ∧ c.size = minSize * 2 ^ i := by
  simp only [byteBufferPool.snapshot, List.mem_map, List.mem_range] at hc
  obtain ⟨i, hi, rfl⟩ := hc
  exact ⟨i, hi, rfl⟩

theorem sorted_head_size_form (p : Pool) :
    ∃ i, i < steps ∧ ((sortCalls p.snapshot).headD ⟨0, 0⟩).size = minSize * 2 ^ i :=
  snapshot_size_form p _ ((sortCalls_perm p.snapshot).mem_iff.mp
    (headD_mem _ _ (sortCalls_ne_nil _ (snapshot_ne_nil p))))

theorem sortedB_head_size_form (q : byteBufferPool) :
    ∃ i, i < steps ∧ ((sortCalls q.snapshot).headD ⟨0, 0⟩).size = minSize * 2 ^ i :=
  snapshotB_size_form q _ ((sortCalls_perm q.snapshot).mem_iff.mp
    (headD_mem _ _ (sortCalls_ne_nil _ (snapshotB_ne_nil q))))

theorem calibrate_sizes_form (p : Pool) (hp : p.calibrating = false) :
    (∃ i, i < steps ∧ (p.calibrate).defaultSize = minSize * 2 ^ i) ∧
    (∃ i, i < steps ∧ (p.calibrate).maxSize = minSize * 2 ^ i) := by
  rw [pool_calibrate_run p hp]
  constructor
  · rcases foldl_adjust_cases (((sortCalls p.snapshot).headD ⟨0, 0⟩).calls * 95 / 100)
        (specVisited ((p.snapshot.map CallSize.calls).sum * 95 / 100)
          (sortCalls p.snapshot) 0)
        (((sortCalls p.snapshot).headD ⟨0, 0⟩).size) with h | ⟨c, hc, he⟩
    · obtain ⟨i, hi, hsz⟩ := sorted_head_size_form p
      exact ⟨i, hi, by rw [h, hsz]⟩
    · obtain ⟨i, hi, hsz⟩ := snapshot_size_form p c
        ((sortCalls_perm p.snapshot).mem_iff.mp
          (specVisited_subset _ _ _ _ hc))
      exact ⟨i, hi, by rw [he, hsz]⟩
  · rcases foldl_max_cases
        (specVisited ((p.snapshot.map CallSize.calls).sum * 95 / 100)
          (sortCalls p.snapshot) 0)
        (((sortCalls p.snapshot).headD ⟨0, 0⟩).size) with h | ⟨c, hc, he⟩
    · obtain ⟨i, hi, hsz⟩ := sorted_head_size_form p
      exact ⟨i, hi, by rw [h, hsz]⟩
    · obtain ⟨i, hi, hsz⟩ := snapshot_size_form p c
        ((sortCalls_perm p.snapshot).mem_iff.mp
          (specVisited_subset _ _ _ _ hc))
      exact ⟨i, hi, by rw [he, hsz]⟩

theorem calibrateB_sizes_form (q : byteBufferPool) (hq : q.calibrating = false) :
    (∃ i, i < steps ∧ (q.calibrate).defaultSize = minSize * 2 ^ i) ∧
    (∃ i, i < steps ∧ (q.calibrate).maxSize = minSize * 2 ^ i) := by
  obtain ⟨hds, hms⟩ := bpool_calibrate_run q hq
  constructor
  · obtain ⟨i, hi, hsz⟩ := sortedB_head_size_form q
    exact ⟨i, hi, by rw [hds, hsz]⟩
  · rw [hms]
    rcases foldl_max_cases
        (specVisited ((q.snapshot.map CallSize.calls).sum * 95 / 100)
          (sortCalls q.snapshot) 0)
        (((sortCalls q.snapshot).headD ⟨0, 0⟩).size) with h | ⟨c, hc, he⟩
    · obtain ⟨i, hi, hsz⟩ := sortedB_head_size_form q
      exact ⟨i, hi, by rw [h, hsz]⟩
    · obtain ⟨i, hi, hsz⟩ := snapshotB_size_form q c
        ((sortCalls_perm q.snapshot).mem_iff.mp
          (specVisited_subset _ _ _ _ hc))
      exact ⟨i, hi, by rw [he, hsz]⟩

theorem putMid_cases (p : Pool) (b : ByteBuffer) :
    p.putMid b =
      ({ p with calls := fun j =>
          if j = index (b.len : Int) then p.calls j + 1 else p.calls j } :
        Pool).calibrate ∨
    p.putMid b =
      { p with calls := fun j =>
          if j = index (b.len : Int) then p.calls j + 1 else p.calls j } := by
  dsimp only [Pool.putMid]
  rw [if_pos (rfl : index (b.len : Int) = index (b.len : Int))]
  split
  · left; rfl
  · right; rfl

theorem put_fields (p : Pool) (b : ByteBuffer) :
    (p.put b).defaultSize = (p.putMid b).defaultSize ∧
    (p.put b).maxSize = (p.putMid b).maxSize ∧
    (p.put b).calibrating = (p.putMid b).calibrating := by
  dsimp only [Pool.put]
  split
  · exact ⟨rfl, rfl, rfl⟩
  · exact ⟨rfl, rfl, rfl⟩

theorem calibrate_calibrating (p : Pool) (hp : p.calibrating = false) :
    (p.calibrate).calibrating = false := by
  unfold Pool.calibrate
  rw [if_neg (by simp [hp])]

theorem reachable_not_calibrating (s : Pool) (h : Pool.Reachable s) :
    s.calibrating = false := by
  induction h with
  | init => rfl
  | get s hs ih => rw [(get_snd_fields s).2.2]; exact ih
  | put s b hs ih =>
    rw [(put_fields s b).2.2]
    rcases putMid_cases s b with heq | heq
    · rw [heq]
      refine calibrate_calibrating _ ?_
      exact ih
    · rw [heq]
      exact ih

theorem reachable_sizes_form (s : Pool) (h : Pool.Reachable s) :
    (s.defaultSize = 0 ∨ ∃ i, i < steps ∧ s.defaultSize = minSize * 2 ^ i) ∧
    (s.maxSize = 0 ∨ ∃ i, i < steps ∧ s.maxSize = minSize * 2 ^ i) := by
  induction h with
  | init => exact ⟨Or.inl rfl, Or.inl rfl⟩
  | get s hs ih =>
    obtain ⟨hd, hm, _⟩ := get_snd_fields s
    rw [hd, hm]
    exact ih
  | put s b hs ih =>
    obtain ⟨hd, hm, _⟩ := put_fields s b
    rw [hd, hm]
    rcases putMid_cases s b with heq | heq
    · rw [heq]
      have hc : ({ s with calls := fun j => if j = index (b.len : Int) then s.calls j + 1 else s.calls j } : Pool).calibrating = false := reachable_not_calibrating s hs
      obtain ⟨h1, h2⟩ := calibrate_sizes_form _ hc
      exact ⟨Or.inr h1, Or.inr h2⟩
    · rw [heq]
      exact ih

theorem releaseMid_cases (q : byteBufferPool) (b : ByteBuffer) :
    q.releaseMid b =
      ({ q with calls := fun j =>
          if j = clampIdx (indexU b.len) then q.calls j + 1 else q.calls j } :
        byteBufferPool).calibrate ∨
    q.releaseMid b =
      { q with calls := fun j =>
          if j = clampIdx (indexU b.len) then q.calls j + 1 else q.calls j } := by
  dsimp only [byteBufferPool.releaseMid]
  rw [if_pos (rfl : clampIdx (indexU b.len) = clampIdx (indexU b.len))]
  split
  · left; rfl
  · right; rfl

theorem releaseGo_fields (r t : byteBufferPool) (b : ByteBuffer)
    (h : (if 0 < r.maxSize ∧ b.cap ≤ r.maxSize then
        (if indexU b.cap < steps then
          some { r with pools := fun j =>
            if j = indexU b.cap then { b with len := 0 } :: r.pools j
            else r.pools j }
        else none)
      else some r) = some t) :
    t.defaultSize = r.defaultSize ∧ t.maxSize = r.maxSize ∧
      t.calibrating = r.calibrating := by
  split at h
  · split at h
    · injection h with h2
      subst h2
      exact ⟨rfl, rfl, rfl⟩
    · exact absurd h (by simp)
  · injection h with h2
    subst h2
    exact ⟨rfl, rfl, rfl⟩

theorem release_fields (q t : byteBufferPool) (b : ByteBuffer)
    (h : q.release b = some t) :
    t.defaultSize = (q.releaseMid b).defaultSize ∧
    t.maxSize = (q.releaseMid b).maxSize ∧
    t.calibrating = (q.releaseMid b).calibrating :=
  releaseGo_fields (q.releaseMid b) t b h

theorem acquireGo_fields (q : byteBufferPool) :
    ∀ is : List Nat,
      ((q.acquireGo is).2).defaultSize = q.defaultSize ∧
      ((q.acquireGo is).2).maxSize = q.maxSize ∧
      ((q.acquireGo is).2).calibrating = q.calibrating := by
  intro is
  induction is with
  | nil => exact ⟨rfl, rfl, rfl⟩
  | cons i rest ih =>
    dsimp only [byteBufferPool.acquireGo]
    by_cases hidx : q.idxs i < steps
    · rw [if_pos hidx]
      rcases hpl : q.pools (q.idxs i) with _ | ⟨c, tl⟩
      · exact ih
      · exact ⟨rfl, rfl, rfl⟩
    · rw [if_neg hidx]
      exact ⟨rfl, rfl, rfl⟩

theorem calibrateB_calibrating (q : byteBufferPool) (hq : q.calibrating = false) :
    (q.calibrate).calibrating = false := by
  unfold byteBufferPool.calibrate
  rw [if_neg (by simp [hq])]

theorem reachableB_not_calibrating (s : byteBufferPool)
    (h : byteBufferPool.Reachable s) : s.calibrating = false := by
  induction h with
  | init => rfl
  | acquire s hs ih =>
    dsimp only [byteBufferPool.acquire]
    rw [(acquireGo_fields s (List.range steps)).2.2]
    exact ih
  | release s t bb hs hrel ih =>
    rw [(release_fields s t bb hrel).2.2]
    rcases releaseMid_cases s bb with heq | heq
    · rw [heq]
      refine calibrateB_calibrating _ ?_
      exact ih
    · rw [heq]
      exact ih

theorem reachableB_sizes_form (s : byteBufferPool)
    (h : byteBufferPool.Reachable s) :
    (s.defaultSize = 0 ∨ ∃ i, i < steps ∧ s.defaultSize = minSize * 2 ^ i) ∧
    (s.maxSize = 0 ∨ ∃ i, i < steps ∧ s.maxSize = minSize * 2 ^ i) := by
  induction h with
  | init => exact ⟨Or.inl rfl, Or.inl rfl⟩
  | acquire s hs ih =>
    obtain ⟨hd, hm, _⟩ := acquireGo_fields s (List.range steps)
    dsimp only [byteBufferPool.acquire]
    rw [hd, hm]
    exact ih
  | release s t bb hs hrel ih =>
    obtain ⟨hd, hm, _⟩ := release_fields s t bb hrel
    rw [hd, hm]
    rcases releaseMid_cases s bb with heq | heq
    · rw [heq]
      have hc : ({ s with calls := fun j => if j = clampIdx (indexU bb.len) then s.calls j + 1 else s.calls j } : byteBufferPool).calibrating = false := reachableB_not_calibrating s hs
      obtain ⟨h1, h2⟩ := calibrateB_sizes_form _ hc
      exact ⟨Or.inr h1, Or.inr h2⟩
    · rw [heq]
      exact ih

/-- C8 counterexample: the zero-value pool is reachable (it is the
initial state, before any calibration pass), and its `defaultSize` is
`0`, which is none of the class boundary sizes `minSize · 2^i`. -/
theorem C8_counterexample :
    Pool.Reachable Pool.initial ∧ Pool.initial.defaultSize = 0 ∧
    ((List.range steps).all fun i =>
      Pool.initial.defaultSize != minSize * 2 ^ i) = true :=
  ⟨Pool.Reachable.init, rfl, by decide⟩

/-- C8 (amended): in every reachable state of either pool variant,
`defaultSize` and the pool-level `maxSize` are each either `0` (their
zero value, before the first completed calibration pass) or a class
boundary size `minSize · 2^i` with `i < steps`. -/
theorem C8_class_boundary_sizes :
    (∀ s : Pool, Pool.Reachable s →
      (s.defaultSize = 0 ∨ ∃ i, i < steps ∧ s.defaultSize = minSize * 2 ^ i) ∧
      (s.maxSize = 0 ∨ ∃ i, i < steps ∧ s.maxSize = minSize * 2 ^ i)) ∧
    (∀ s : byteBufferPool, byteBufferPool.Reachable s →
      (s.defaultSize = 0 ∨ ∃ i, i < steps ∧ s.defaultSize = minSize * 2 ^ i) ∧
      (s.maxSize = 0 ∨ ∃ i, i < steps ∧ s.maxSize = minSize * 2 ^ i)) :=
  ⟨reachable_sizes_form, reachableB_sizes_form⟩

/-- Witness for `C8_class_boundary_sizes` at a reachable state with one
release performed from the zero value. -/
theorem C8_class_boundary_sizes_witness :
    ((Pool.initial.put ⟨5, 80⟩).defaultSize = 0 ∨
      ∃ i, i < steps ∧ (Pool.initial.put ⟨5, 80⟩).defaultSize = minSize * 2 ^ i) ∧
    ((Pool.initial.put ⟨5, 80⟩).maxSize = 0 ∨
      ∃ i, i < steps ∧ (Pool.initial.put ⟨5, 80⟩).maxSize = minSize * 2 ^ i) :=
  C8_class_boundary_sizes.1 (Pool.initial.put ⟨5, 80⟩)
    (Pool.Reachable.put Pool.initial ⟨5, 80⟩ Pool.Reachable.init)

/-- C9 counterexample: `exBinsC9` sits at the default spectrum base
(`minBitSize = 6`); the smallest class received calls (7) and the top
two classes received none, so the claim demands a downward shift
(halving `minSize`), yet the completed calibration pass leaves
`minBitSize = 6` and `minSize = 64` unchanged — the code only shifts
down while `minBitSize > defaultMinBitSize`. -/
theorem C9_counterexample :
    exBinsC9.minBitSize = 6 ∧ 0 < exBinsC9.calls 0 ∧
    exBinsC9.calls (steps - 2) = 0 ∧ exBinsC9.calls (steps - 1) = 0 ∧
    (exBinsC9.calibrate).minBitSize = 6 ∧ (exBinsC9.calibrate).minSize = 64 := by
  decide

/-- C9 (amended): during a calibration pass of the `unnamed/part_000`
variant (with the spectrum base initialised, `minBitSize ≠ 0`), the
spectrum base moves as follows: it is doubled (`minBitSize + 1`) when
`minBitSize + steps < 32` and the largest class received more calls than
the smallest in the snapshot; otherwise it is halved (`minBitSize - 1`)
when `minBitSize` exceeds the default `defaultMinBitSize = 6`, the
smallest class received calls and the top two classes received none;
otherwise it is unchanged.  The claim omitted the two guard conditions. -/
theorem C9_rebase :
    ∀ p : BinsPool, p.calibrating = false → p.minBitSize ≠ 0 →
      (p.calibrate).minBitSize =
        (if p.minBitSize + steps < 32 ∧ p.calls 0 < p.calls (steps - 1) then
          p.minBitSize + 1
        else if defaultMinBitSize < p.minBitSize ∧ 0 < p.calls 0 ∧
            p.calls (steps - 2) = 0 ∧ p.calls (steps - 1) = 0 then
          p.minBitSize - 1
        else p.minBitSize) ∧
      (p.calibrate).minSize =
        (if p.minBitSize + steps < 32 ∧ p.calls 0 < p.calls (steps - 1) then
          2 ^ (p.minBitSize + 1)
        else if defaultMinBitSize < p.minBitSize ∧ 0 < p.calls 0 ∧
            p.calls (steps - 2) = 0 ∧ p.calls (steps - 1) = 0 then
          2 ^ (p.minBitSize - 1)
        else p.minSize) := by
  intro p hp hmb
  dsimp only [BinsPool.calibrate]
  rw [if_neg (by simp [hp])]
  rw [if_neg hmb]
  have h0 : p.snapshot.getD 0 ⟨0, 0⟩ = ⟨p.calls 0, p.minSize * 2 ^ 0⟩ := rfl
  have h18 : p.snapshot.getD (steps - 2) ⟨0, 0⟩ =
      ⟨p.calls (steps - 2), p.minSize * 2 ^ (steps - 2)⟩ := rfl
  have h19 : p.snapshot.getD (steps - 1) ⟨0, 0⟩ =
      ⟨p.calls (steps - 1), p.minSize * 2 ^ (steps - 1)⟩ := rfl
  rw [h0, h18, h19]
  dsimp only []
  by_cases h1 : p.minBitSize + steps < 32 ∧ p.calls 0 < p.calls (steps - 1)
  · rw [if_pos h1, if_pos h1, if_pos h1]
    exact ⟨rfl, rfl⟩
  · rw [if_neg h1, if_neg h1, if_neg h1]
    by_cases h2 : defaultMinBitSize < p.minBitSize ∧ 0 < p.calls 0 ∧
        p.calls (steps - 2) = 0 ∧ p.calls (steps - 1) = 0
    · rw [if_pos h2, if_pos h2, if_pos h2]
      exact ⟨rfl, rfl⟩
    · rw [if_neg h2, if_neg h2, if_neg h2]
      exact ⟨rfl, rfl⟩

/-- Witness for `C9_rebase` at the concrete state `exBins7`, where the
downward-shift branch fires: the base returns from 7 to 6 and `minSize`
halves from 128 to 64. -/
theorem C9_rebase_witness :
    (exBins7.calibrate).minBitSize =
      (if exBins7.minBitSize + steps < 32 ∧
          exBins7.calls 0 < exBins7.calls (steps - 1) then
        exBins7.minBitSize + 1
      else if defaultMinBitSize < exBins7.minBitSize ∧ 0 < exBins7.calls 0 ∧
          exBins7.calls (steps - 2) = 0 ∧ exBins7.calls (steps - 1) = 0 then
        exBins7.minBitSize - 1
      else exBins7.minBitSize) ∧
    (exBins7.calibrate).minSize =
      (if exBins7.minBitSize + steps < 32 ∧
          exBins7.calls 0 < exBins7.calls (steps - 1) then
        2 ^ (exBins7.minBitSize + 1)
      else if defaultMinBitSize < exBins7.minBitSize ∧ 0 < exBins7.calls 0 ∧
          exBins7.calls (steps - 2) = 0 ∧ exBins7.calls (steps - 1) = 0 then
        2 ^ (exBins7.minBitSize - 1)
      else exBins7.minSize) :=
  C9_rebase exBins7 rfl (by decide)
